import Mathlib

/-!
Verification of the bit-editor transform core.

The definitions below are a shallow embedding of the Go source
(`bytesToBits`, `bitsToBytes`, `applyBlockOps`, `applyEdits`).
Go bytes are modelled as `Nat` values kept below 256 (wrap-around
subtraction is made explicit), Go `int` positions and counts as `Int`,
Go strings (scanned byte-wise over ASCII command text) as `List Char`,
and Go slice expressions as an explicit bounds-checked operation that
returns a panic error when the bounds are invalid, as the Go runtime
would.  The outer replay loop of `applyEdits` can genuinely diverge, so
it is embedded with an explicit fuel parameter; `Res.fuelOut` marks the
case where the loop was still running when the fuel ran out.
-/

namespace BitTools

/-- Go `byte(a - b)`: wrap-around subtraction modulo 256. -/
def goByteSub (a b : Nat) : Nat := (a % 256 + 256 - b % 256) % 256

/-- Go `byte(c - '0')` for a pattern character `c`. -/
def charSub0 (c : Char) : Nat := goByteSub c.toNat 48

/-- One byte to its 8 bits, MSB first (`(b>>(7-j))&1`, source lines 169-176). -/
def byteToBits (b : Nat) : List Nat :=
  (List.range 8).map (fun j => if (b >>> (7 - j)) &&& 1 = 1 then 1 else 0)

/-- Source `bytesToBits` (lines 167-179): every byte becomes 8 bits, MSB first. -/
def bytesToBits (data : List Nat) : List Nat :=
  data.flatMap byteToBits

/-- Packs up to 8 bits into one byte: bit `j` of the group sets `1 << (7-j)`
when it equals 1, mirroring `data[byteIndex] |= 1 << (7-bitIndex)` (line 189). -/
def packBits : List Nat → Nat → Nat
  | [], _ => 0
  | bit :: rest, j => (if bit = 1 then 1 <<< (7 - j) else 0) ||| packBits rest (j + 1)

/-- Source `bitsToBytes` (lines 182-193): `ceil(len/8)` bytes, a final short
group is padded with zero bits at the low end. -/
def bitsToBytes : List Nat → List Nat
  | [] => []
  | b0 :: b1 :: b2 :: b3 :: b4 :: b5 :: b6 :: b7 :: rest =>
      packBits [b0, b1, b2, b3, b4, b5, b6, b7] 0 :: bitsToBytes rest
  | rest => [packBits rest 0]

/-- Error values, one per distinct `fmt.Errorf` site of the source, plus
`slicePanic` for a Go runtime panic on an out-of-range slice expression. -/
inductive Err where
  | startOutOfBounds
  | startAfterEnd
  | mismatchedBrackets
  | blockMissingCount
  | blockBadCount
  | badNumericArg (command : Char)
  | byteSwapNotMultipleOf8
  | badInsert
  | badLogicalArg (command : Char)
  | badLogicalCount (command : Char)
  | emptyPattern (command : Char)
  | badPattern (command : Char)
  | blockNeedsPattern (command : Char)
  | blockEmptyPattern (command : Char)
  | notAllowedInBlock (command : Char)
  | unknownBlockCommand (command : Char)
  | unknownCommand (command : Char)
  | slicePanic
deriving Repr, DecidableEq

/-- Spec section 7 groups start/end validation failures as `RangeError`. -/
def Err.isRangeError : Err → Bool
  | .startOutOfBounds => true
  | .startAfterEnd => true
  | _ => false

/-- Go slice `l[a:b]` on a bit slice: panics unless `0 ≤ a ≤ b ≤ len`. -/
def goSlice (l : List Nat) (a b : Int) : Except Err (List Nat) :=
  if 0 ≤ a ∧ a ≤ b ∧ b ≤ (l.length : Int) then
    .ok ((l.drop a.toNat).take (b - a).toNat)
  else .error .slicePanic

/-- Decimal digit test, Go `c >= '0' && c <= '9'`. -/
def isDigitChar (c : Char) : Bool := 48 ≤ c.toNat && c.toNat ≤ 57

/-- Decimal value of a digit run. -/
def digitsToNat (l : List Char) : Nat :=
  l.foldl (fun acc c => acc * 10 + (c.toNat - 48)) 0

/-- Go `strconv.Atoi`: optional sign, a nonempty digit run, 64-bit range. -/
def goAtoi (s : List Char) : Option Int :=
  match s with
  | [] => none
  | c :: cs =>
    let signDigits : Bool × List Char :=
      if c = '-' then (true, cs) else if c = '+' then (false, cs) else (false, s)
    if signDigits.2.isEmpty then none
    else if ¬ signDigits.2.all isDigitChar then none
    else
      let v : Int :=
        if signDigits.1 then -(digitsToNat signDigits.2 : Int)
        else (digitsToNat signDigits.2 : Int)
      if v < -(2 ^ 63) ∨ 2 ^ 63 - 1 < v then none else some v

/-- Argument terminators of the top-level scanner, Go `"tsnivxaob["` (line 374). -/
def topArgTerminators : List Char := ['t', 's', 'n', 'i', 'v', 'x', 'a', 'o', 'b', '[']

/-- Argument terminators inside a block chain, Go `"nvxao"` (line 209). -/
def blockArgTerminators : List Char := ['n', 'v', 'x', 'a', 'o']

/-- The `readEnd` clamp used by every consuming command (e.g. lines 346-349). -/
def clampReadEnd (pos count endB : Int) : Int :=
  if pos + count > endB then endB else pos + count

/-- The switch on the logical operator character (lines 259-266 / 484-492);
the final 0 is Go's zero value of the undeclared `resultBit`, unreachable. -/
def goLogicalOp (command : Char) (bit patternBit : Nat) : Nat :=
  if command = 'x' then bit ^^^ patternBit
  else if command = 'a' then bit &&& patternBit
  else if command = 'o' then bit ||| patternBit
  else 0

/-- Block `b`: byte order reversed in place when more than one whole byte,
remainder bits beyond `numBytes*8` left untouched (lines 235-246). -/
def blockByteSwap (chunk : List Nat) : List Nat :=
  let numBytes := chunk.length / 8
  if numBytes > 1 then
    ((List.range numBytes).flatMap
      (fun i => (chunk.drop ((numBytes - 1 - i) * 8)).take 8))
      ++ chunk.drop (numBytes * 8)
  else chunk

/-- Top-level `b`: whole bytes written back to front (loop at lines 435-438),
then the remaining bits that do not form a full byte (lines 441-443). -/
def byteSwapTop (chunk : List Nat) : List Nat :=
  let numBytes := chunk.length / 8
  ((List.range numBytes).reverse.flatMap (fun i => (chunk.drop (i * 8)).take 8))
    ++ (if chunk.length % 8 ≠ 0 then chunk.drop (numBytes * 8) else [])

/-- The spec's description of the top-level ByteSwap output: the whole 8-bit
bytes of the chunk in reversed order, then the trailing bits that do not form
a full byte, unreordered. -/
def byteSwapSpec (chunk : List Nat) : List Nat :=
  (((List.range (chunk.length / 8)).map (fun i => (chunk.drop (8 * i)).take 8)).reverse).flatten
    ++ chunk.drop (8 * (chunk.length / 8))

/-- The `'x', 'a', 'o'` case of the block switch (lines 247-268): the
argument must contain a `:`; the pattern is everything after the first `:`
and must only be nonempty — each mask bit is `byte(pattern[i%len] - '0')`
with no check that the character is binary. -/
def blockLogicalApply (command : Char) (argStr : List Char) (chunk : List Nat) :
    Except Err (List Nat) :=
  if ¬ argStr.contains ':' then .error (.blockNeedsPattern command)
  else
    let pattern := (argStr.drop (argStr.takeWhile (fun ch => ch != ':')).length).drop 1
    if pattern.isEmpty then .error (.blockEmptyPattern command)
    else
      .ok (chunk.mapIdx (fun i bit =>
        goLogicalOp command bit (charSub0 (pattern.getD (i % pattern.length) '0'))))

/-- Source `applyBlockOps` (lines 196-276), with an explicit structural fuel
that is always instantiated with the sub-program length; every iteration of
the Go loop consumes at least the command character, so that fuel suffices
and the `0, _ :: _` fallback is never reached from `applyBlockOps`. -/
def applyBlockOpsAux (verbose : Bool) : Nat → List Nat → List Char → Except Err (List Nat)
  | _, chunk, [] => .ok chunk
  | 0, chunk, _ :: _ => .ok chunk
  | fuel + 1, chunk, command :: rest =>
    let isLogical := command = 'x' ∨ command = 'a' ∨ command = 'o'
    let argStr :=
      if isLogical then rest.takeWhile (fun ch => !(blockArgTerminators.contains ch))
      else []
    let remaining := if isLogical then rest.drop argStr.length else rest
    if command = 'n' then
      applyBlockOpsAux verbose fuel (chunk.map (fun bit => goByteSub 1 bit)) remaining
    else if command = 'v' then
      applyBlockOpsAux verbose fuel chunk.reverse remaining
    else if command = 'b' then
      applyBlockOpsAux verbose fuel (blockByteSwap chunk) remaining
    else if isLogical then
      match blockLogicalApply command argStr chunk with
      | .error e => .error e
      | .ok processedChunk => applyBlockOpsAux verbose fuel processedChunk remaining
    else if command = 't' ∨ command = 's' ∨ command = 'i' then
      .error (.notAllowedInBlock command)
    else .error (.unknownBlockCommand command)

/-- Source `applyBlockOps` at its natural fuel. -/
def applyBlockOps (initialChunk : List Nat) (subProgram : List Char) (verbose : Bool) :
    Except Err (List Nat) :=
  applyBlockOpsAux verbose subProgram.length initialChunk subProgram

/-- Interpreter state of `applyEdits`: the input cursor and the output bits. -/
structure EditState where
  pos : Int
  out : List Nat
deriving Repr, DecidableEq

/-- Command text remaining after one command is decoded, mirroring the
`cmdIdx` updates of the source: past the digits following `]` for a block
(lines 327-359), past the scanned argument for every other command
(lines 368-381). -/
def nextCmds : List Char → List Char
  | [] => []
  | command :: rest =>
    if command = '[' then
      let subProg := rest.takeWhile (fun ch => ch != ']')
      let afterBracket := (rest.drop subProg.length).drop 1
      let digits := afterBracket.takeWhile isDigitChar
      afterBracket.drop digits.length
    else
      rest.drop (rest.takeWhile (fun ch => !(topArgTerminators.contains ch))).length

/-- One command of the inner scan of `applyEdits` (lines 314-499): decodes the
command at the head of `cmds` and executes it on `st`.  `shouldLog` is the
verbosity value the source computes at line 316; it feeds only the (dropped)
diagnostic prints and the `verbose` argument of `applyBlockOps`. -/
def runStep (inputBits : List Nat) (endB : Int) (shouldLog : Bool) :
    List Char → EditState → Except Err EditState
  | [], st => .ok st
  | command :: rest, st =>
    if command = '[' then
      let subProg := rest.takeWhile (fun ch => ch != ']')
      if subProg.length = rest.length then .error .mismatchedBrackets
      else
        let afterBracket := (rest.drop subProg.length).drop 1
        let digits := afterBracket.takeWhile isDigitChar
        if digits.isEmpty then .error .blockMissingCount
        else
          match goAtoi digits with
          | none => .error .blockBadCount
          | some count =>
            let readEnd := clampReadEnd st.pos count endB
            match goSlice inputBits st.pos readEnd with
            | .error e => .error e
            | .ok chunk =>
              match applyBlockOps chunk subProg shouldLog with
              | .error e => .error e
              | .ok processedChunk => .ok ⟨readEnd, st.out ++ processedChunk⟩
    else
      let argStr := rest.takeWhile (fun ch => !(topArgTerminators.contains ch))
      if command = 't' ∨ command = 's' ∨ command = 'n' ∨ command = 'v' ∨ command = 'b' then
        match goAtoi argStr with
        | none => .error (.badNumericArg command)
        | some count =>
          if command = 't' then
            let readEnd := clampReadEnd st.pos count endB
            match goSlice inputBits st.pos readEnd with
            | .error e => .error e
            | .ok chunk => .ok ⟨readEnd, st.out ++ chunk⟩
          else if command = 's' then
            .ok ⟨st.pos + count, st.out⟩
          else if command = 'n' then
            let readEnd := clampReadEnd st.pos count endB
            match goSlice inputBits st.pos readEnd with
            | .error e => .error e
            | .ok chunk => .ok ⟨readEnd, st.out ++ chunk.map (fun bit => goByteSub 1 bit)⟩
          else if command = 'v' then
            let readEnd := clampReadEnd st.pos count endB
            match goSlice inputBits st.pos readEnd with
            | .error e => .error e
            | .ok chunk => .ok ⟨readEnd, st.out ++ chunk.reverse⟩
          else
            if count % 8 ≠ 0 then .error .byteSwapNotMultipleOf8
            else
              let readEnd := clampReadEnd st.pos count endB
              match goSlice inputBits st.pos readEnd with
              | .error e => .error e
              | .ok chunk => .ok ⟨readEnd, st.out ++ byteSwapTop chunk⟩
      else if command = 'i' then
        if argStr.all (fun ch => ch == '0' || ch == '1') then
          .ok ⟨st.pos, st.out ++ argStr.map (fun ch => ch.toNat - 48)⟩
        else .error .badInsert
      else if command = 'x' ∨ command = 'a' ∨ command = 'o' then
        if ¬ argStr.contains ':' then .error (.badLogicalArg command)
        else
          let left := argStr.takeWhile (fun ch => ch != ':')
          let pattern := (argStr.drop left.length).drop 1
          match goAtoi left with
          | none => .error (.badLogicalCount command)
          | some count =>
            if pattern.isEmpty then .error (.emptyPattern command)
            else if ¬ pattern.all (fun ch => ch == '0' || ch == '1') then
              .error (.badPattern command)
            else
              let readEnd := clampReadEnd st.pos count endB
              match goSlice inputBits st.pos readEnd with
              | .error e => .error e
              | .ok chunk =>
                .ok ⟨readEnd, st.out ++ chunk.mapIdx (fun i bit =>
                  goLogicalOp command bit (charSub0 (pattern.getD (i % pattern.length) '0')))⟩
      else .error (.unknownCommand command)

/-- One full pass of the inner loop (lines 309-505): commands are executed
from the current text position until the text or the bit window is exhausted,
with the `inputPos >= endBit` check performed before every command.  The fuel
is always instantiated with the length of the command text, which every
command consumes at least one character of. -/
def runPassAux (inputBits : List Nat) (endB : Int)
    (verbose verboseOnce logPrinted : Bool) :
    Nat → List Char → EditState → Except Err EditState
  | _, [], st => .ok st
  | 0, _ :: _, st => .ok st
  | fuel + 1, command :: rest, st =>
    if st.pos ≥ endB then .ok st
    else
      let shouldLog := verbose && (!verboseOnce || !logPrinted)
      match runStep inputBits endB shouldLog (command :: rest) st with
      | .error e => .error e
      | .ok st' =>
        runPassAux inputBits endB verbose verboseOnce logPrinted fuel
          (nextCmds (command :: rest)) st'

/-- One pass at its natural fuel. -/
def runPass (inputBits : List Nat) (endB : Int)
    (verbose verboseOnce logPrinted : Bool) (cmds : List Char) (st : EditState) :
    Except Err EditState :=
  runPassAux inputBits endB verbose verboseOnce logPrinted cmds.length cmds st

/-- Result of a fuelled run: the Go function either returns bytes, returns an
error, or — when the outer loop never exits — exhausts any finite fuel. -/
inductive Res where
  | ok (bytes : List Nat)
  | err (e : Err)
  | fuelOut
deriving Repr, DecidableEq

/-- The outer replay loop (lines 303-507): while the cursor is inside the
window, an empty command text ends the run, otherwise one pass executes and
`logPrinted` becomes true.  Each pass costs one unit of fuel. -/
def runLoop (inputBits : List Nat) (endB : Int) (cmds : List Char)
    (verbose verboseOnce : Bool) : Nat → Bool → EditState → Res
  | 0, _, st =>
    if st.pos < endB then
      (if cmds = [] then .ok st.out else .fuelOut)
    else .ok st.out
  | fuel + 1, logPrinted, st =>
    if st.pos < endB then
      if cmds = [] then .ok st.out
      else
        match runPass inputBits endB verbose verboseOnce logPrinted cmds st with
        | .error e => .err e
        | .ok st' => runLoop inputBits endB cmds verbose verboseOnce fuel true st'
    else .ok st.out

/-- End-of-range normalization (lines 288-290): `end ≤ 0` or past the data
becomes the total bit length. -/
def normEnd (data : List Nat) (endBit : Int) : Int :=
  if endBit ≤ 0 ∨ endBit > ((bytesToBits data).length : Int) then
    ((bytesToBits data).length : Int)
  else endBit

/-- Packs the accumulated output bits of a finished run (line 509). -/
def finishRun : Res → Res
  | .ok bits => .ok (bitsToBytes bits)
  | r => r

/-- Source `applyEdits` (lines 279-510) with explicit fuel for the outer
replay loop. -/
def applyEdits (fuel : Nat) (data : List Nat) (commands : List Char)
    (startBit endBit : Int) (verbose verboseOnce : Bool) : Res :=
  let inputBits := bytesToBits data
  if startBit < 0 ∨ startBit > (inputBits.length : Int) then .err .startOutOfBounds
  else
    let endB := normEnd data endBit
    if startBit > endB then .err .startAfterEnd
    else finishRun (runLoop inputBits endB commands verbose verboseOnce fuel false
      ⟨startBit, []⟩)

/-- The Go loop never exits: any amount of fuel runs out. -/
def Diverges (data : List Nat) (cmds : List Char) (startBit endBit : Int) : Prop :=
  ∀ fuel, applyEdits fuel data cmds startBit endBit false false = .fuelOut

end BitTools

namespace BitTools

/-! ### Helper lemmas -/

theorem applyBlockOpsAux_nil (v : Bool) (fuel : Nat) (chunk : List Nat) :
    applyBlockOpsAux v fuel chunk [] = .ok chunk := by
  cases fuel <;> rfl

theorem runPassAux_nil (bits : List Nat) (endB : Int) (v vo lp : Bool)
    (fuel : Nat) (st : EditState) :
    runPassAux bits endB v vo lp fuel [] st = .ok st := by
  cases fuel <;> rfl

theorem takeWhile_of_all {α : Type} (p : α → Bool) :
    ∀ (l : List α), (∀ a ∈ l, p a = true) → l.takeWhile p = l := by
  intro l h
  induction l with
  | nil => rfl
  | cons a t ih =>
    rw [List.takeWhile_cons, h a (by simp), ih (fun b hb => h b (by simp [hb]))]
    rfl

theorem bytesToBits_length (data : List Nat) :
    (bytesToBits data).length = 8 * data.length := by
  induction data with
  | nil => rfl
  | cons b t ih =>
    simp only [bytesToBits, List.flatMap_cons, List.length_append, List.length_cons] at *
    rw [ih]
    have : (byteToBits b).length = 8 := rfl
    omega

theorem goSlice_ok_bounds {l : List Nat} {a b : Int} {c : List Nat}
    (h : goSlice l a b = .ok c) : 0 ≤ a ∧ a ≤ b ∧ b ≤ (l.length : Int) := by
  by_cases hc : 0 ≤ a ∧ a ≤ b ∧ b ≤ (l.length : Int)
  · exact hc
  · rw [goSlice, if_neg hc] at h
    exact Except.noConfusion h

theorem clampReadEnd_le {pos count endB : Int} (h : pos ≤ endB) :
    clampReadEnd pos count endB ≤ endB := by
  unfold clampReadEnd
  split <;> omega

set_option maxRecDepth 4096 in
theorem packBits_byteToBits : ∀ b < 256, packBits (byteToBits b) 0 = b := by decide

theorem bitsToBytes_block (b0 b1 b2 b3 b4 b5 b6 b7 : Nat) (rest : List Nat) :
    bitsToBytes (b0 :: b1 :: b2 :: b3 :: b4 :: b5 :: b6 :: b7 :: rest) =
      packBits [b0, b1, b2, b3, b4, b5, b6, b7] 0 :: bitsToBytes rest := rfl

/-! ### Claim C7: bit packing round trip -/

/-- Claim C7: for every byte sequence, packing it to its MSB-first bit
sequence and unpacking that bit sequence back yields the original bytes. -/
theorem pack_unpack_roundtrip : ∀ (data : List Nat), (∀ b ∈ data, b < 256) →
    bitsToBytes (bytesToBits data) = data := by
  intro data h
  induction data with
  | nil => rfl
  | cons b t ih =>
    have hb : byteToBits b =
        [(if (b >>> 7) &&& 1 = 1 then 1 else 0), (if (b >>> 6) &&& 1 = 1 then 1 else 0),
         (if (b >>> 5) &&& 1 = 1 then 1 else 0), (if (b >>> 4) &&& 1 = 1 then 1 else 0),
         (if (b >>> 3) &&& 1 = 1 then 1 else 0), (if (b >>> 2) &&& 1 = 1 then 1 else 0),
         (if (b >>> 1) &&& 1 = 1 then 1 else 0), (if (b >>> 0) &&& 1 = 1 then 1 else 0)] := rfl
    have hsplit : bytesToBits (b :: t) = byteToBits b ++ bytesToBits t := by
      simp [bytesToBits]
    rw [hsplit, hb]
    show bitsToBytes (_ :: _ :: _ :: _ :: _ :: _ :: _ :: _ :: bytesToBits t) = b :: t
    rw [bitsToBytes_block]
    rw [ih (fun x hx => h x (by simp [hx]))]
    have hpb := packBits_byteToBits b (h b (by simp))
    rw [hb] at hpb
    rw [hpb]

/-- Witness for C7 at a concrete byte sequence. -/
theorem pack_unpack_roundtrip_witness :
    (∀ b ∈ [0xAB, 0x00, 0xFF, 0x01], b < 256) ∧
      bitsToBytes (bytesToBits [0xAB, 0x00, 0xFF, 0x01]) = [0xAB, 0x00, 0xFF, 0x01] :=
  ⟨by decide, pack_unpack_roundtrip _ (by decide)⟩

/-! ### Claim C1: block chains `[vn]8` and `[nv]8` on byte 0xB0 -/

/-- Claim C1 counterexample: `[nv]8` over the byte `0xB0` does not produce
`0x4F`; it produces `0xF2`, the same byte `[vn]8 produces, so the two chain
orders do not yield distinct outputs on this input. -/
theorem chain_order_nv_counterexample :
    applyEdits 2 [0xB0] ['[', 'n', 'v', ']', '8'] 0 0 false false ≠ Res.ok [0x4F] ∧
      applyEdits 2 [0xB0] ['[', 'n', 'v', ']', '8'] 0 0 false false = Res.ok [0xF2] := by
  constructor
  · decide
  · decide

/-- Claim C1 (amended): `[vn]8` over the full range of the byte `0xB0`
produces `0xF2`, and `[nv]8` produces `0xF2` as well: inverting is pointwise
and bit-reversal is a permutation, so the two chain orders agree on every
chunk. -/
theorem chain_order_immaterial :
    applyEdits 2 [0xB0] ['[', 'v', 'n', ']', '8'] 0 0 false false = Res.ok [0xF2] ∧
      applyEdits 2 [0xB0] ['[', 'n', 'v', ']', '8'] 0 0 false false = Res.ok [0xF2] ∧
      ∀ (chunk : List Nat) (v : Bool),
        applyBlockOps chunk ['n', 'v'] v = applyBlockOps chunk ['v', 'n'] v := by
  refine ⟨by decide, by decide, fun chunk v => ?_⟩
  show Except.ok ((chunk.map fun bit => goByteSub 1 bit).reverse) =
    Except.ok (chunk.reverse.map fun bit => goByteSub 1 bit)
  rw [List.map_reverse]

/-! ### Claim C2: `s16t8` over "ABCABCABC" -/

/-- Claim C2 counterexample: `s16t8` over the full range of the nine bytes
`0x41 0x42 0x43` repeated three times does not produce `[0x42, 0x42, 0x42]`:
skipping 16 bits lands on the third byte of each group, not the second. -/
theorem s16t8_counterexample :
    applyEdits 5 [0x41, 0x42, 0x43, 0x41, 0x42, 0x43, 0x41, 0x42, 0x43]
        ['s', '1', '6', 't', '8'] 0 0 false false ≠ Res.ok [0x42, 0x42, 0x42] := by
  decide

/-- Claim C2 (amended): `s16t8` over the full range of the nine bytes
`0x41 0x42 0x43` repeated three times produces `[0x43, 0x43, 0x43]` — each
pass skips two bytes and takes the third. -/
theorem s16t8_extracts_third_bytes :
    applyEdits 5 [0x41, 0x42, 0x43, 0x41, 0x42, 0x43, 0x41, 0x42, 0x43]
        ['s', '1', '6', 't', '8'] 0 0 false false = Res.ok [0x43, 0x43, 0x43] := by
  decide

/-! ### Claim C6: top-level ByteSwap -/

theorem flatMap_eq_flatten_map {α β : Type} (f : α → List β) :
    ∀ l : List α, l.flatMap f = (l.map f).flatten := by
  intro l
  induction l with
  | nil => rfl
  | cons a t ih => simp [List.flatMap_cons, List.map_cons, List.flatten_cons, ih]

theorem byteSwapTop_eq_spec (chunk : List Nat) : byteSwapTop chunk = byteSwapSpec chunk := by
  simp only [byteSwapTop, byteSwapSpec]
  rw [flatMap_eq_flatten_map]
  congr 1
  · congr 1
    simp [Nat.mul_comm]
  · by_cases h8 : chunk.length % 8 = 0
    · simp only [h8]
      rw [if_neg (by omega)]
      exact (List.drop_eq_nil_of_le (by omega)).symm
    · rw [if_pos h8, Nat.mul_comm]

theorem byteSwap_bad_count (bits : List Nat) (endB : Int) (sl : Bool)
    (rest : List Char) (st : EditState) (n : Int)
    (h : goAtoi (rest.takeWhile (fun ch => !(topArgTerminators.contains ch))) = some n)
    (hmod : n % 8 ≠ 0) :
    runStep bits endB sl ('b' :: rest) st = .error .byteSwapNotMultipleOf8 := by
  simp only [runStep, h]
  simp [hmod]

/-- Claim C6: a top-level ByteSwap whose parsed count is not a multiple of 8
fails with the invalid-argument error regardless of cursor, range or data
(so before any clamping); otherwise the appended bits are the clamped chunk's
whole bytes reversed followed by the unreordered trailing bits; and `b32`
over the full range of `[0x01,0x02,0x03,0x04]` gives `[0x04,0x03,0x02,0x01]`. -/
theorem byteSwap_semantics :
    (∀ (bits : List Nat) (endB : Int) (sl : Bool) (rest : List Char)
        (st : EditState) (n : Int),
      goAtoi (rest.takeWhile (fun ch => !(topArgTerminators.contains ch))) = some n →
      n % 8 ≠ 0 →
      runStep bits endB sl ('b' :: rest) st = .error .byteSwapNotMultipleOf8) ∧
    (∀ chunk : List Nat, byteSwapTop chunk = byteSwapSpec chunk) ∧
    applyEdits 2 [0x01, 0x02, 0x03, 0x04] ['b', '3', '2'] 0 0 false false =
      Res.ok [0x04, 0x03, 0x02, 0x01] :=
  ⟨byteSwap_bad_count, byteSwapTop_eq_spec, by decide⟩

/-- Witness for C6: `b7` fails before clamping even on empty input at an
empty range. -/
theorem byteSwap_semantics_witness :
    runStep [] 0 false ['b', '7'] ⟨0, []⟩ = .error .byteSwapNotMultipleOf8 :=
  byteSwap_semantics.1 [] 0 false ['7'] ⟨0, []⟩ 7 rfl (by decide)

/-! ### Claim C9: block logical patterns are not validated -/

theorem blockLogicalApply_ok (command : Char) (arg pat : List Char) (chunk : List Nat)
    (hcolon : arg.contains ':' = true)
    (hpat : pat = (arg.drop (arg.takeWhile (fun ch => ch != ':')).length).drop 1)
    (hne : pat ≠ []) :
    blockLogicalApply command arg chunk =
      .ok (chunk.mapIdx (fun i bit =>
        goLogicalOp command bit (charSub0 (pat.getD (i % pat.length) '0')))) := by
  simp only [blockLogicalApply]
  rw [if_neg (not_not_intro hcolon), ← hpat,
    if_neg (show ¬ (pat.isEmpty = true) from by simp [hne])]

/-- Claim C9: inside a block chain a logical command's pattern is only checked
for a `:` separator and nonemptiness — any characters are accepted without an
error and each mask bit is the character's code point minus that of `'0'`
(as wrap-around byte arithmetic, via `charSub0`); the top-level logical
commands instead reject a non-binary pattern character, as on `x8:2`. -/
theorem block_pattern_unchecked :
    (∀ (chunk : List Nat) (v : Bool) (command : Char) (arg pat : List Char),
      command = 'x' ∨ command = 'a' ∨ command = 'o' →
      (∀ c ∈ arg, blockArgTerminators.contains c = false) →
      arg.contains ':' = true →
      pat = (arg.drop (arg.takeWhile (fun ch => ch != ':')).length).drop 1 →
      pat ≠ [] →
      applyBlockOps chunk (command :: arg) v =
        .ok (chunk.mapIdx (fun i bit =>
          goLogicalOp command bit (charSub0 (pat.getD (i % pat.length) '0'))))) ∧
    (∀ (bits : List Nat) (endB : Int) (sl : Bool) (st : EditState),
      runStep bits endB sl ['x', '8', ':', '2'] st = .error (.badPattern 'x')) := by
  constructor
  · intro chunk v command arg pat hcmd hterm hcolon hpat hne
    have hscan : arg.takeWhile (fun ch => !(blockArgTerminators.contains ch)) = arg :=
      takeWhile_of_all _ arg (fun a ha => by rw [hterm a ha]; rfl)
    have hok := blockLogicalApply_ok command arg pat chunk hcolon hpat hne
    rcases hcmd with h | h | h <;> subst h
    · have hx : applyBlockOps chunk ('x' :: arg) v =
          match blockLogicalApply 'x'
              (arg.takeWhile (fun ch => !(blockArgTerminators.contains ch))) chunk with
          | .error e => .error e
          | .ok processedChunk =>
              applyBlockOpsAux v arg.length processedChunk
                (arg.drop
                  (arg.takeWhile (fun ch => !(blockArgTerminators.contains ch))).length) :=
        rfl
      rw [hx, hscan, List.drop_length, hok]
      exact applyBlockOpsAux_nil v arg.length _
    · have hx : applyBlockOps chunk ('a' :: arg) v =
          match blockLogicalApply 'a'
              (arg.takeWhile (fun ch => !(blockArgTerminators.contains ch))) chunk with
          | .error e => .error e
          | .ok processedChunk =>
              applyBlockOpsAux v arg.length processedChunk
                (arg.drop
                  (arg.takeWhile (fun ch => !(blockArgTerminators.contains ch))).length) :=
        rfl
      rw [hx, hscan, List.drop_length, hok]
      exact applyBlockOpsAux_nil v arg.length _
    · have hx : applyBlockOps chunk ('o' :: arg) v =
          match blockLogicalApply 'o'
              (arg.takeWhile (fun ch => !(blockArgTerminators.contains ch))) chunk with
          | .error e => .error e
          | .ok processedChunk =>
              applyBlockOpsAux v arg.length processedChunk
                (arg.drop
                  (arg.takeWhile (fun ch => !(blockArgTerminators.contains ch))).length) :=
        rfl
      rw [hx, hscan, List.drop_length, hok]
      exact applyBlockOpsAux_nil v arg.length _
  · intro bits endB sl st
    rfl

/-- Witness for C9: the block chain `x:102` maps `[1, 0]` to `[0, 0]` with no
pattern error despite the non-binary `'2'`. -/
theorem block_pattern_unchecked_witness :
    applyBlockOps [1, 0] ['x', ':', '1', '0', '2'] false = .ok [0, 0] :=
  (block_pattern_unchecked.1 [1, 0] false 'x' [':', '1', '0', '2'] ['1', '0', '2']
    (Or.inl rfl) (by decide) (by decide) (by decide) (by decide)).trans rfl

/-! ### Claim C10: block chain argument terminator set -/

/-- Claim C10: the characters `b t s i [` terminate a top-level argument run
but not a block-chain logical argument run, whose terminator set is only
`{n,v,x,a,o}`; hence in the chain `x:101b` the `'b'` is absorbed into the
pattern (mask bit `charSub0 'b'`) instead of being decoded as a command,
while the top-level scanner stops the same argument text before `'b'`. -/
theorem block_arg_terminator_set :
    ((['b', 't', 's', 'i', '[']).all
        (fun c => !(blockArgTerminators.contains c) && topArgTerminators.contains c) = true) ∧
    ((([':', '1', '0', '1', 'b']).takeWhile (fun ch => !(topArgTerminators.contains ch))) =
      [':', '1', '0', '1']) ∧
    ((([':', '1', '0', '1', 'b']).takeWhile (fun ch => !(blockArgTerminators.contains ch))) =
      [':', '1', '0', '1', 'b']) ∧
    (∀ (chunk : List Nat) (v : Bool),
      applyBlockOps chunk ['x', ':', '1', '0', '1', 'b'] v =
        .ok (chunk.mapIdx (fun i bit =>
          bit ^^^ charSub0 ((['1', '0', '1', 'b'] : List Char).getD (i % 4) '0')))) :=
  ⟨by decide, by decide, by decide, fun chunk v => rfl⟩

/-! ### Claim C5: range validation and normalization -/

/-- Claim C5: an end bound that is nonpositive or beyond `8*len(bytes)` is
normalized to `8*len(bytes)`; a start outside `[0, 8*len(bytes)]` yields the
start-out-of-bounds error; a start beyond the normalized end yields the
start-after-end error; `start=4, end=2` yields a range error on every input. -/
theorem range_validation :
    (∀ (data : List Nat) (endBit : Int),
      endBit ≤ 0 ∨ endBit > 8 * data.length → normEnd data endBit = 8 * data.length) ∧
    (∀ (fuel : Nat) (data : List Nat) (cmds : List Char) (s e : Int) (v vo : Bool),
      s < 0 ∨ s > 8 * data.length →
      applyEdits fuel data cmds s e v vo = .err .startOutOfBounds) ∧
    (∀ (fuel : Nat) (data : List Nat) (cmds : List Char) (s e : Int) (v vo : Bool),
      0 ≤ s → s ≤ 8 * data.length → normEnd data e < s →
      applyEdits fuel data cmds s e v vo = .err .startAfterEnd) ∧
    (∀ (fuel : Nat) (data : List Nat) (cmds : List Char) (v vo : Bool),
      ∃ er, applyEdits fuel data cmds 4 2 v vo = .err er ∧ er.isRangeError = true) := by
  have hnorm2 : ∀ (d : Nat) (ds : List Nat), normEnd (d :: ds) 2 = 2 := by
    intro d ds
    have h8 := bytesToBits_length (d :: ds)
    have h9 : (d :: ds).length = ds.length + 1 := rfl
    simp only [normEnd]
    split_ifs with hc
    · exfalso
      omega
    · rfl
  refine ⟨?_, ?_, ?_, ?_⟩
  · intro data e h
    have h8 := bytesToBits_length data
    simp only [normEnd]
    split_ifs with hc
    · rw [h8]
      push_cast
      ring
    · exfalso
      omega
  · intro fuel data cmds s e v vo h
    have h8 := bytesToBits_length data
    simp only [applyEdits]
    split_ifs with hc1 hc2
    · rfl
    · exfalso
      omega
    · exfalso
      omega
  · intro fuel data cmds s e v vo h0 h1 h2
    have h8 := bytesToBits_length data
    simp only [applyEdits]
    split_ifs with hc1
    · exfalso
      omega
    · rfl
  · intro fuel data cmds v vo
    rcases data with _ | ⟨d, ds⟩
    · exact ⟨.startOutOfBounds, by simp [applyEdits, bytesToBits], rfl⟩
    · refine ⟨.startAfterEnd, ?_, rfl⟩
      have h8 := bytesToBits_length (d :: ds)
      have h9 : (d :: ds).length = ds.length + 1 := rfl
      have h2 := hnorm2 d ds
      simp only [applyEdits]
      split_ifs with hc1 hc2
      · exfalso
        omega
      · rfl
      · exfalso
        rw [h2] at hc2
        omega

/-- Witness for C5: a negative start is rejected on empty input. -/
theorem range_validation_witness :
    applyEdits 1 [] [] (-1) 0 false false = .err .startOutOfBounds :=
  range_validation.2.1 1 [] [] (-1) 0 false false (Or.inl (by decide))

/-! ### Claim C3: cursor model -/

theorem runStep_nonskip_bound (bits : List Nat) (endB : Int) (sl : Bool) (c : Char)
    (rest : List Char) (st st' : EditState) (hcs : c ≠ 's')
    (hle : st.pos ≤ endB)
    (h : runStep bits endB sl (c :: rest) st = .ok st') :
    st.pos ≤ st'.pos ∧ st'.pos ≤ endB := by
  simp only [runStep] at h
  split at h
  · -- c = '['
    split at h
    · simp at h
    · split at h
      · simp at h
      · split at h
        · simp at h
        · rename_i count hcount
          split at h
          · simp at h
          · rename_i chunk hslice
            split at h
            · simp at h
            · injection h with h'
              subst h'
              exact ⟨(goSlice_ok_bounds hslice).2.1, clampReadEnd_le hle⟩
  · -- simple commands
    split at h
    · -- numeric commands t s n v b
      split at h
      · simp at h
      · rename_i count hcount
        split at h
        · -- t
          split at h
          · simp at h
          · rename_i chunk hslice
            injection h with h'
            subst h'
            exact ⟨(goSlice_ok_bounds hslice).2.1, clampReadEnd_le hle⟩
        · -- the `c = 's'` test is discharged by `hcs`; next is n
          split at h
          · -- n
            split at h
            · simp at h
            · rename_i chunk hslice
              injection h with h'
              subst h'
              exact ⟨(goSlice_ok_bounds hslice).2.1, clampReadEnd_le hle⟩
          · split at h
            · -- v
              split at h
              · simp at h
              · rename_i chunk hslice
                injection h with h'
                subst h'
                exact ⟨(goSlice_ok_bounds hslice).2.1, clampReadEnd_le hle⟩
            · -- b
              split at h
              · simp at h
              · split at h
                · simp at h
                · rename_i chunk hslice
                  injection h with h'
                  subst h'
                  exact ⟨(goSlice_ok_bounds hslice).2.1, clampReadEnd_le hle⟩
    · split at h
      · -- i
        split at h
        · injection h with h'
          subst h'
          exact ⟨le_refl _, hle⟩
        · simp at h
      · split at h
        · -- logical
          split at h
          · simp at h
          · split at h
            · simp at h
            · rename_i count hcount
              split at h
              · simp at h
              · split at h
                · simp at h
                · split at h
                  · simp at h
                  · rename_i chunk hslice
                    injection h with h'
                    subst h'
                    exact ⟨(goSlice_ok_bounds hslice).2.1, clampReadEnd_le hle⟩
        · simp at h

theorem runStep_skip (bits : List Nat) (endB : Int) (sl : Bool)
    (rest : List Char) (st : EditState) (n : Int)
    (h : goAtoi (rest.takeWhile (fun ch => !(topArgTerminators.contains ch))) = some n) :
    runStep bits endB sl ('s' :: rest) st = .ok ⟨st.pos + n, st.out⟩ := by
  simp only [runStep, h]
  simp

theorem runPass_stop (bits : List Nat) (endB : Int) (v vo lp : Bool)
    (cmds : List Char) (st : EditState) (h : endB ≤ st.pos) :
    runPass bits endB v vo lp cmds st = .ok st := by
  cases cmds with
  | nil => rfl
  | cons c rest =>
    show runPassAux bits endB v vo lp (rest.length + 1) (c :: rest) st = .ok st
    rw [runPassAux, if_pos h]

theorem runLoop_stop (bits : List Nat) (endB : Int) (cmds : List Char)
    (v vo : Bool) (fuel : Nat) (lp : Bool) (st : EditState) (h : endB ≤ st.pos) :
    runLoop bits endB cmds v vo fuel lp st = .ok st.out := by
  cases fuel with
  | zero =>
    rw [runLoop, if_neg (by omega)]
  | succ n =>
    rw [runLoop, if_neg (by omega)]

theorem applyEdits_start (fuel : Nat) (data : List Nat) (cmds : List Char)
    (s e : Int) (v vo : Bool) (h0 : 0 ≤ s)
    (h1 : s ≤ ((bytesToBits data).length : Int)) (h2 : s ≤ normEnd data e) :
    applyEdits fuel data cmds s e v vo =
      finishRun (runLoop (bytesToBits data) (normEnd data e) cmds v vo fuel false ⟨s, []⟩) := by
  simp only [applyEdits]
  split_ifs with hc1 hc2
  · exfalso
    omega
  · exfalso
    omega
  · rfl

/-- Claim C3 counterexample: inside a full transform run of `s16` over one
byte (range 0..8) the skip moves the cursor to 16, past the range end 8, and
a negative skip count moves it backwards; the run itself completes. -/
theorem cursor_clamp_counterexample :
    runStep (bytesToBits [0x00]) 8 false ['s', '1', '6'] ⟨0, []⟩ = .ok ⟨16, []⟩ ∧
      ¬ ((16 : Int) ≤ 8) ∧
      runStep (bytesToBits [0x00]) 8 false ['s', '-', '2'] ⟨0, []⟩ = .ok ⟨-2, []⟩ ∧
      ¬ ((0 : Int) ≤ -2) ∧
      applyEdits 1 [0x00] ['s', '1', '6'] 0 0 false false = Res.ok [] := by
  refine ⟨rfl, by decide, rfl, by decide, by decide⟩

/-- Claim C3 (amended): the cursor starts at the validated start bit; every
successfully executed command other than Skip keeps it non-decreasing and at
most the range end; Skip advances it by exactly its parsed count, unclamped,
so a count larger than the remaining bits moves it past the end (and a
negative one moves it backwards); once the cursor is at or past the end, the
pass and the outer loop stop without executing further commands. -/
theorem cursor_model :
    (∀ (fuel : Nat) (data : List Nat) (cmds : List Char) (s e : Int) (v vo : Bool),
      0 ≤ s → s ≤ ((bytesToBits data).length : Int) → s ≤ normEnd data e →
      applyEdits fuel data cmds s e v vo =
        finishRun (runLoop (bytesToBits data) (normEnd data e) cmds v vo fuel false
          ⟨s, []⟩)) ∧
    (∀ (bits : List Nat) (endB : Int) (sl : Bool) (c : Char) (rest : List Char)
        (st st' : EditState),
      c ≠ 's' → st.pos ≤ endB →
      runStep bits endB sl (c :: rest) st = .ok st' →
      st.pos ≤ st'.pos ∧ st'.pos ≤ endB) ∧
    (∀ (bits : List Nat) (endB : Int) (sl : Bool) (rest : List Char)
        (st : EditState) (n : Int),
      goAtoi (rest.takeWhile (fun ch => !(topArgTerminators.contains ch))) = some n →
      runStep bits endB sl ('s' :: rest) st = .ok ⟨st.pos + n, st.out⟩) ∧
    (∀ (bits : List Nat) (endB : Int) (v vo lp : Bool) (cmds : List Char)
        (st : EditState),
      endB ≤ st.pos → runPass bits endB v vo lp cmds st = .ok st) ∧
    (∀ (bits : List Nat) (endB : Int) (cmds : List Char) (v vo : Bool) (fuel : Nat)
        (lp : Bool) (st : EditState),
      endB ≤ st.pos → runLoop bits endB cmds v vo fuel lp st = .ok st.out) :=
  ⟨applyEdits_start, runStep_nonskip_bound, runStep_skip, runPass_stop, runLoop_stop⟩

/-- Witness for C3 at concrete inputs: a clamped Take lands inside the range,
and a Skip adds its exact count. -/
theorem cursor_model_witness :
    ((0 : Int) ≤ (⟨4, [1, 0, 1, 0]⟩ : EditState).pos ∧
      (⟨4, [1, 0, 1, 0]⟩ : EditState).pos ≤ 8) ∧
      runStep (bytesToBits [0xAB]) 8 false ['s', '1', '6'] ⟨0, []⟩ =
        .ok ⟨(0 : Int) + 16, []⟩ :=
  ⟨cursor_model.2.1 (bytesToBits [0xAB]) 8 false 't' ['4'] ⟨0, []⟩ ⟨4, [1, 0, 1, 0]⟩
      (by decide) (by decide) rfl,
    cursor_model.2.2.1 (bytesToBits [0xAB]) 8 false ['1', '6'] ⟨0, []⟩ 16 rfl⟩

/-! ### Claim C8: verbosity flags do not influence the result -/

theorem applyBlockOpsAux_verbose (v : Bool) :
    ∀ (fuel : Nat) (chunk : List Nat) (sp : List Char),
      applyBlockOpsAux v fuel chunk sp = applyBlockOpsAux false fuel chunk sp := by
  intro fuel
  induction fuel with
  | zero =>
    intro chunk sp
    cases sp <;> rfl
  | succ n ih =>
    intro chunk sp
    cases sp with
    | nil => rfl
    | cons c rest =>
      simp only [applyBlockOpsAux]
      simp only [ih]

theorem applyBlockOps_verbose (chunk : List Nat) (sp : List Char) (v : Bool) :
    applyBlockOps chunk sp v = applyBlockOps chunk sp false :=
  applyBlockOpsAux_verbose v sp.length chunk sp

theorem runStep_shouldLog (bits : List Nat) (endB : Int) (sl : Bool)
    (cmds : List Char) (st : EditState) :
    runStep bits endB sl cmds st = runStep bits endB false cmds st := by
  cases cmds with
  | nil => rfl
  | cons c rest =>
    simp only [runStep, applyBlockOps_verbose]

theorem runPassAux_flags (bits : List Nat) (endB : Int) (v vo lp : Bool) :
    ∀ (fuel : Nat) (cmds : List Char) (st : EditState),
      runPassAux bits endB v vo lp fuel cmds st =
        runPassAux bits endB false false false fuel cmds st := by
  intro fuel
  induction fuel with
  | zero =>
    intro cmds st
    cases cmds <;> rfl
  | succ n ih =>
    intro cmds st
    cases cmds with
    | nil => rfl
    | cons c rest =>
      simp only [runPassAux]
      rw [runStep_shouldLog bits endB (v && (!vo || !lp)),
        runStep_shouldLog bits endB (false && (!false || !false))]
      simp only [ih]

theorem runPass_flags (bits : List Nat) (endB : Int) (v vo lp : Bool)
    (cmds : List Char) (st : EditState) :
    runPass bits endB v vo lp cmds st = runPass bits endB false false false cmds st :=
  runPassAux_flags bits endB v vo lp cmds.length cmds st

theorem runLoop_flags (bits : List Nat) (endB : Int) (cmds : List Char) (v vo : Bool) :
    ∀ (fuel : Nat) (lp lp' : Bool) (st : EditState),
      runLoop bits endB cmds v vo fuel lp st =
        runLoop bits endB cmds false false fuel lp' st := by
  intro fuel
  induction fuel with
  | zero =>
    intro lp lp' st
    rfl
  | succ n ih =>
    intro lp lp' st
    simp only [runLoop]
    rw [runPass_flags bits endB v vo lp cmds st,
      ← runPass_flags bits endB false false lp' cmds st]
    rw [runPass_flags bits endB false false lp' cmds st]
    simp only [show ∀ s : EditState, runLoop bits endB cmds v vo n true s =
      runLoop bits endB cmds false false n true s from fun s => ih true true s]


/-- Claim C8: the transform is a pure function of its arguments, and the two
verbosity flags (which only feed the dropped diagnostic prints and the
`verbose` argument of `applyBlockOps`) never change its result: any flag
combination returns exactly what both-false returns, at every fuel. -/
theorem verbosity_flags_no_influence (fuel : Nat) (data : List Nat) (cmds : List Char)
    (s e : Int) (v vo : Bool) :
    applyEdits fuel data cmds s e v vo = applyEdits fuel data cmds s e false false := by
  simp only [applyEdits]
  rw [runLoop_flags (bytesToBits data) (normEnd data e) cmds v vo fuel false false]

/-! ### Claim C4: termination -/

theorem i1_loop : ∀ (fuel : Nat) (lp : Bool) (out : List Nat),
    runLoop (bytesToBits [0x41]) 8 ['i', '1'] false false fuel lp ⟨0, out⟩ = .fuelOut := by
  intro fuel
  induction fuel with
  | zero =>
    intro lp out
    rfl
  | succ n ih =>
    intro lp out
    exact ih true (out ++ [1])

/-- Claim C4 counterexample: the insert-only program `i1` over the full
range of a single byte never finishes — after any number of passes the
cursor is still at 0, inside the range, so every finite fuel runs out (the
Go outer loop spins forever). -/
theorem insert_only_diverges : Diverges [0x41] ['i', '1'] 0 0 := by
  intro fuel
  show applyEdits fuel [0x41] ['i', '1'] 0 0 false false = .fuelOut
  have h : applyEdits fuel [0x41] ['i', '1'] 0 0 false false =
      finishRun (runLoop (bytesToBits [0x41]) 8 ['i', '1'] false false fuel false ⟨0, []⟩) :=
    rfl
  rw [h, i1_loop]
  rfl

theorem runLoop_progress (bits : List Nat) (endB : Int) (cmds : List Char) (v vo : Bool)
    (H : ∀ (lp : Bool) (st : EditState), st.pos < endB →
      (∃ er, runPass bits endB v vo lp cmds st = .error er) ∨
      (∃ st', runPass bits endB v vo lp cmds st = .ok st' ∧ st.pos < st'.pos)) :
    ∀ (fuel : Nat) (lp : Bool) (st : EditState),
      (endB - st.pos).toNat ≤ fuel →
      runLoop bits endB cmds v vo fuel lp st ≠ .fuelOut := by
  intro fuel
  induction fuel with
  | zero =>
    intro lp st hb
    rw [runLoop, if_neg (by omega)]
    simp
  | succ n ih =>
    intro lp st hb
    rw [runLoop]
    by_cases hp : st.pos < endB
    · rw [if_pos hp]
      by_cases hc : cmds = []
      · rw [if_pos hc]
        simp
      · rw [if_neg hc]
        rcases H lp st hp with ⟨er, her⟩ | ⟨st', hst, hlt⟩
        · rw [her]
          simp
        · rw [hst]
          exact ih true st' (by omega)
    · rw [if_neg hp]
      simp

/-- Claim C4 (amended): the transform terminates — finishes with output
bytes or an error within `end - start` passes — whenever every pass from a
cursor inside the range either fails or strictly advances the cursor;
programs whose passes leave the cursor unchanged without error (for example
Insert-only or zero-count programs on a nonempty range) replay forever
instead of running to completion. -/
theorem transform_terminates_of_progress :
    ∀ (data : List Nat) (cmds : List Char) (s e : Int) (v vo : Bool),
      (∀ (lp : Bool) (st : EditState), st.pos < normEnd data e →
        (∃ er, runPass (bytesToBits data) (normEnd data e) v vo lp cmds st = .error er) ∨
        (∃ st', runPass (bytesToBits data) (normEnd data e) v vo lp cmds st = .ok st' ∧
          st.pos < st'.pos)) →
      ∀ fuel : Nat, (normEnd data e - s).toNat ≤ fuel →
        applyEdits fuel data cmds s e v vo ≠ .fuelOut := by
  intro data cmds s e v vo H fuel hb
  simp only [applyEdits]
  split_ifs with hc1 hc2
  · simp
  · simp
  · have h := runLoop_progress (bytesToBits data) (normEnd data e) cmds v vo H fuel false
      ⟨s, []⟩ hb
    intro hcon
    cases hr : runLoop (bytesToBits data) (normEnd data e) cmds v vo fuel false ⟨s, []⟩ with
    | ok bits2 =>
      rw [hr] at hcon
      simp [finishRun] at hcon
    | err er =>
      rw [hr] at hcon
      simp [finishRun] at hcon
    | fuelOut => exact h hr

/-- Witness for C4 at the progressing program `s1` over one byte. -/
theorem transform_terminates_witness :
    applyEdits 8 [0xAB] ['s', '1'] 0 0 false false ≠ .fuelOut := by
  have hrp : ∀ (lp : Bool) (st : EditState), st.pos < (8 : Int) →
      runPass (bytesToBits [0xAB]) 8 false false lp ['s', '1'] st =
        .ok ⟨st.pos + 1, st.out⟩ := by
    intro lp st hlt
    show runPassAux (bytesToBits [0xAB]) 8 false false lp 2 ['s', '1'] st = _
    rw [runPassAux, if_neg (not_le.mpr hlt)]
    rfl
  exact transform_terminates_of_progress [0xAB] ['s', '1'] 0 0 false false
    (fun lp st hlt => Or.inr ⟨⟨st.pos + 1, st.out⟩, hrp lp st hlt,
      by show st.pos < st.pos + 1; omega⟩) 8 (by decide)
